import Mathlib

/-!
Shallow embedding of the `wheel-reader` repository (Rust): locator parsing
(`WheelUrl` in `src/main.rs` and `src/reader.rs`), backend construction and
the origin-keyed backend cache (`Services` in `src/reader.rs`), the ZIP
metadata-entry search and extraction (`run` in `src/main.rs`), and the
streaming JSON map encoder consumed by `main`.

External crates are embedded at the granularity of their documented observable
behaviour: a parsed `url::Url` is represented by the fields the program reads
(`scheme()`, `domain()`, `path()`); `Url::from_file_path` succeeds exactly on
absolute paths (url crate documentation); opendal I/O and ZIP opening are
abstracted by a `fetch` function yielding the archive's central directory;
`destream_json::encode_map` is embedded per the JSON spec / spec section 4.6
(brace, comma-separated escaped string members, brace).  Rust panics
(`unwrap` / `expect`) are embedded as `Option.none` results.
-/

/-- The two locator variants of `WheelUrlType` (src/main.rs, src/reader.rs). -/
inductive WheelUrlType where
  | Httpx
  | File
deriving DecidableEq, Repr

/-- The observable part of a parsed `url::Url`: the results of the accessor
calls the program makes.  `domain` is the result of `Url::domain()`, which is
`None` when the host is an IP address or absent. -/
structure Url where
  scheme : String
  domain : Option String
  path : String
deriving DecidableEq, Repr

/-- Whether a Unix path string is absolute (starts with a slash). -/
def isAbsolutePath (s : String) : Bool :=
  match s.data with
  | c :: _ => c = '/'
  | [] => false

/-- Modelled from the url crate documentation (the crate is an external
collaborator, not repository code): `Url::from_file_path` succeeds exactly on
absolute paths, producing a `file` URL holding that path. -/
def Url.from_file_path (s : String) : Option Url :=
  if isAbsolutePath s then some ⟨"file", none, s⟩ else none

/-- `WheelUrl` (src/main.rs lines 20-24): a typed locator. -/
structure WheelUrl where
  url_type : WheelUrlType
  url : Url
deriving DecidableEq, Repr

/-- Scheme dispatch of `TryFrom<Url> for WheelUrl` (src/reader.rs lines 31-42),
inlined identically in `WheelUrl::from_str` (src/main.rs lines 45-49).  The
error text follows src/main.rs (`unknown scheme: {s}` over the raw input). -/
def wheelUrlOfUrl (s : String) (url : Url) : Except String WheelUrl :=
  if url.scheme = "https" ∨ url.scheme = "http" then .ok ⟨.Httpx, url⟩
  else if url.scheme = "file" then .ok ⟨.File, url⟩
  else .error ("unknown scheme: " ++ s)

/-- `WheelUrl::from_str` (src/main.rs lines 35-52).  `parseResult` is the
outcome of the external call `Url::parse(s)` (`none` = parse failure); on
failure the string is treated as a filesystem path via `Url::from_file_path`,
whose failure yields the `invalid path: {s}` error. -/
def WheelUrl.from_str (parseResult : Option Url) (s : String) : Except String WheelUrl :=
  match parseResult with
  | none =>
    match Url.from_file_path s with
    | some url => .ok ⟨.File, url⟩
    | none => .error ("invalid path: " ++ s)
  | some url => wheelUrlOfUrl s url

/-- `WheelUrl::endpoint` (src/reader.rs lines 82-89).  For `Httpx` it is
`format!("{scheme}://{domain.unwrap()}")`; the `unwrap` panics when
`Url::domain()` is `None`, embedded as `none`. -/
def WheelUrl.endpoint (u : WheelUrl) : Option String :=
  match u.url_type with
  | .Httpx => u.url.domain.map (fun d => u.url.scheme ++ "://" ++ d)
  | .File => some "/"

/-- The backend builder variants (`Service`, src/main.rs lines 54-57). -/
inductive Service where
  | Httpx (endpoint : String)
  | File (root : String)
deriving DecidableEq, Repr

/-- `WheelUrl::service` (src/main.rs lines 78-86): for `Httpx` the endpoint is
`format!("{scheme}://{domain.unwrap()}")` — a panic (`none`) when the domain is
absent; for `File` the root is `/`. -/
def WheelUrl.service (u : WheelUrl) : Option Service :=
  match u.url_type with
  | .Httpx => u.url.domain.map (fun d => Service.Httpx (u.url.scheme ++ "://" ++ d))
  | .File => some (Service.File "/")

/-- `WheelUrl::path` (src/main.rs lines 88-90): the URL's path component. -/
def WheelUrl.path (u : WheelUrl) : String := u.url.path

/-- Splitting a character list at every slash. -/
def splitSlashAux : List Char → List Char → List (List Char)
  | [], acc => [acc.reverse]
  | c :: rest, acc =>
    if c = '/' then acc.reverse :: splitSlashAux rest [] else splitSlashAux rest (c :: acc)

/-- The `/`-separated components of a path string (equivalent to
`String.splitOn "/"`, in executable form). -/
def splitSlash (p : String) : List String :=
  (splitSlashAux p.data []).map String.mk

/-- Model of `std::path::PathBuf::file_name` on Unix paths (std library,
external): the last path component after ignoring empty components and `.`,
unless that component is `..` (then `None`). -/
def pathFileName (p : String) : Option String :=
  match ((splitSlash p).filter (fun c => decide (c ≠ "" ∧ c ≠ "."))).getLast? with
  | some c => if c = ".." then none else some c
  | none => none

/-- `WheelUrl::file_name` (src/main.rs lines 92-100): `PathBuf::from(path)`
then `.file_name()`; `none` is the `no file name` error.  (The `OsStr → str`
conversion cannot fail since the path came from a `&str`, cf. src/reader.rs
line 104.) -/
def WheelUrl.file_name (u : WheelUrl) : Option String :=
  pathFileName u.url.path

/-- The serialization read back by `Display for WheelUrl`
(src/main.rs lines 26-33): the whole URL for `Httpx`, the path for `File`. -/
def WheelUrl.displayString (u : WheelUrl) : String :=
  match u.url_type with
  | .Httpx => u.url.scheme ++ "://" ++ (u.url.domain.getD "") ++ u.url.path
  | .File => u.url.path

/-- Whether the regex `.*/METADATA$` (RE_METADATA, src/main.rs lines 110-112)
matches a name under `Regex::is_match`: since `.*` may be empty and the match
may start anywhere, the unanchored pattern matches exactly the strings ending
in `/METADATA`. -/
def reMetadataMatch (s : String) : Bool :=
  List.isSuffixOf "/METADATA".data s.data

/-- One central-directory entry as the program observes it
(`zip_file.file().entries()`, src/main.rs lines 121-131): `filenameUtf8` is
the result of `entry.filename().as_str()` (`none` = not valid UTF-8), and
`contentUtf8` is `String::from_utf8` of the entry's full bytes
(`none` = invalid UTF-8). -/
structure ZipEntry where
  filenameUtf8 : Option String
  contentUtf8 : Option String
deriving DecidableEq, Repr

/-- The archive's central directory, in the order it presents its entries. -/
abbrev Archive := List ZipEntry

/-- The metadata-entry search (src/main.rs lines 121-128):
`entries().enumerate().flat_map(keep UTF-8 names).find_map(first regex match)`
— the first original index whose decodable name matches `RE_METADATA`. -/
def findMetadataEntry (names : List (Option String)) : Option Nat :=
  (names.enum.filterMap (fun p => p.2.map (fun s => (p.1, s)))).findSome?
    (fun p => if reMetadataMatch p.2 then some p.1 else none)

/-- Recursive index-carrying form of the same search, used for reasoning. -/
def findMetadataFrom : Nat → List (Option String) → Option Nat
  | _, [] => none
  | i, none :: rest => findMetadataFrom (i + 1) rest
  | i, some s :: rest =>
      if reMetadataMatch s then some i else findMetadataFrom (i + 1) rest

/-- `async fn run` (src/main.rs lines 114-133).  `fetch` abstracts the opendal
reader plus `ZipFileReader::new` (I/O and archive-format failures); the outer
`Option` is `none` when `url.service()` panics (`domain().unwrap()`); the
entry's `contentUtf8` being `none` is the `String::from_utf8` failure. -/
def runModel (fetch : WheelUrl → Except String Archive) (url : WheelUrl) :
    Option (Except String (WheelUrl × String)) :=
  match url.service with
  | none => none
  | some _ =>
    some (match fetch url with
      | .error e => .error e
      | .ok ar =>
        match findMetadataEntry (ar.map ZipEntry.filenameUtf8) with
        | none => .error "no METADATA file"
        | some i =>
          match ar.get? i with
          | none => .error "invalid entry index" -- unreachable: the search yields an in-range index
          | some e =>
            match e.contentUtf8 with
            | none => .error "invalid utf-8"
            | some text => .ok (url, text))

/-! ## The origin-keyed backend cache (`Services`, src/reader.rs lines 113-124) -/

/-- The cache key `(WheelUrlType, String)` of `Services.services`. -/
abbrev Origin := WheelUrlType × String

/-- A built `opendal::Operator` as far as the cache can observe it: the origin
it was built for and a construction sequence number distinguishing separately
constructed handles. -/
structure Operator where
  origin : Origin
  id : Nat
deriving DecidableEq, Repr

/-- Association lookup modelling `HashMap::entry`'s find step. -/
def findService (k : Origin) : List (Origin × Operator) → Option Operator
  | [] => none
  | (k₂, op) :: rest => if k₂ = k then some op else findService k rest

/-- `Services` (src/reader.rs lines 113-116) plus a log of handle-construction
events (one `Origin` appended per `or_insert_with` closure invocation). -/
structure Services where
  services : List (Origin × Operator)
  log : List Origin
deriving DecidableEq, Repr

/-- The empty cache (`Services::default()`). -/
def Services.empty : Services := ⟨[], []⟩

/-- `Services::operator` (src/reader.rs lines 119-123):
`entry((url_type, endpoint)).or_insert_with(build)`.  `none` embeds the panic
of `endpoint()` (`domain().unwrap()`); handle construction is recorded in the
log.  (`build().expect(..)` is modelled as succeeding: building an operator
from a well-formed builder does not fail for these two backends.) -/
def Services.operator (s : Services) (u : WheelUrl) : Option (Operator × Services) :=
  u.endpoint.map fun ep =>
    let key : Origin := (u.url_type, ep)
    match findService key s.services with
    | some op => (op, s)
    | none =>
      let op : Operator := ⟨key, s.log.length⟩
      (op, ⟨s.services ++ [(key, op)], s.log ++ [key]⟩)

/-- Sequential resolution of a list of locators against the shared cache (the
`&mut self` receiver serializes all `operator` calls). -/
def processAll : List WheelUrl → Services → Option Services
  | [], s => some s
  | u :: rest, s =>
    match s.operator u with
    | none => none
    | some (_, s₂) => processAll rest s₂

/-! ## The streaming JSON map encoder

`destream_json::encode_map` is an external crate; it is embedded per the JSON
specification and spec section 4.6: emit an opening brace, then for each
arriving pair a comma separator (for all but the first), a JSON-escaped string
key, a colon, a JSON-escaped string value, and a closing brace at the end. -/

/-- Lower-case hex digit of a value below 16. -/
def hexDigitChar (n : Nat) : Char :=
  if n < 10 then Char.ofNat (48 + n) else Char.ofNat (87 + n)

/-- JSON escaping of one character: quote and backslash get a backslash
escape, control characters a `\u00XX` escape, everything else is literal. -/
def escapeChar (c : Char) : List Char :=
  if c = '"' then ['\\', '"']
  else if c = '\\' then ['\\', '\\']
  else if c.toNat < 32 then
    ['\\', 'u', '0', '0', hexDigitChar (c.toNat / 16), hexDigitChar (c.toNat % 16)]
  else [c]

/-- JSON escaping of a character sequence. -/
def escapeBody : List Char → List Char
  | [] => []
  | c :: cs => escapeChar c ++ escapeBody cs

/-- A JSON string literal for `s`. -/
def escapeString (s : String) : String :=
  "\"" ++ String.mk (escapeBody s.data) ++ "\""

/-- One JSON object member: escaped key, colon, escaped value. -/
def encodeMember (p : String × String) : String :=
  escapeString p.1 ++ ":" ++ escapeString p.2

/-- The members after the first, each preceded by its comma separator. -/
def encodeTail : List (String × String) → String
  | [] => ""
  | p :: rest => "," ++ encodeMember p ++ encodeTail rest

/-- All members of the object, comma-separated. -/
def encodeMembers : List (String × String) → String
  | [] => ""
  | p :: rest => encodeMember p ++ encodeTail rest

/-- The bytes the streaming encoder has emitted once exactly the pairs `l`
have arrived (opening brace and members, no closing brace yet). -/
def encodeMapPartial (l : List (String × String)) : String :=
  "\x7b" ++ encodeMembers l

/-- The complete encoded JSON object. -/
def encodeMap (l : List (String × String)) : String :=
  encodeMapPartial l ++ "\x7d"

/-! ## A JSON object parser (for stating syntactic validity of the output) -/

/-- Value of a lower-case hex digit character. -/
def parseHexDigit (c : Char) : Option Nat :=
  if 48 ≤ c.toNat ∧ c.toNat ≤ 57 then some (c.toNat - 48)
  else if 97 ≤ c.toNat ∧ c.toNat ≤ 102 then some (c.toNat - 87)
  else none

/-- Parse the escape sequence following a backslash. -/
def parseEscape : List Char → Option (Char × List Char)
  | [] => none
  | e :: rest =>
    if e = '"' then some ('"', rest)
    else if e = '\\' then some ('\\', rest)
    else if e = 'u' then
      match rest with
      | h₁ :: h₂ :: h₃ :: h₄ :: rest₂ =>
        match parseHexDigit h₁, parseHexDigit h₂, parseHexDigit h₃, parseHexDigit h₄ with
        | some a, some b, some c, some d =>
          let n := ((a * 16 + b) * 16 + c) * 16 + d
          if n < 55296 then some (Char.ofNat n, rest₂) else none
        | _, _, _, _ => none
      | _ => none
    else none

theorem parseEscape_length (l : List Char) (c : Char) (r : List Char)
    (h : parseEscape l = some (c, r)) : r.length < l.length := by
  match l with
  | [] => simp [parseEscape] at h
  | e :: rest =>
    simp only [parseEscape] at h
    split_ifs at h with h₁ h₂ h₃
    · cases h; simp
    · cases h; simp
    · split at h
      · split at h
        · split_ifs at h
          cases h
          simp
          omega
        · simp at h
      · simp at h

set_option linter.unusedVariables false in
/-- Parse a JSON string body up to and including the closing quote, returning
the decoded characters and the remaining input. -/
def parseStringBody : List Char → Option (List Char × List Char)
  | [] => none
  | c :: rest =>
    if c = '"' then some ([], rest)
    else if c = '\\' then
      match h : parseEscape rest with
      | none => none
      | some (ch, rest₂) => (parseStringBody rest₂).map (fun p => (ch :: p.1, p.2))
    else (parseStringBody rest).map (fun p => (c :: p.1, p.2))
termination_by l => l.length
decreasing_by
  · exact Nat.lt_trans (parseEscape_length _ _ _ h) (Nat.lt_succ_self _)
  · exact Nat.lt_succ_self _

/-- Parse a JSON string literal (leading quote, body, closing quote). -/
def parseString : List Char → Option (String × List Char)
  | [] => none
  | c :: rest =>
    if c = '"' then (parseStringBody rest).map (fun p => (String.mk p.1, p.2))
    else none

/-- Expect one specific character at the head of the input. -/
def expectChar (c : Char) : List Char → Option (List Char)
  | [] => none
  | d :: rest => if d = c then some rest else none

/-- Parse one `key : value` member (both JSON strings). -/
def parseMember (l : List Char) : Option ((String × String) × List Char) :=
  (parseString l).bind fun kr =>
    (expectChar ':' kr.2).bind fun r₂ =>
      (parseString r₂).map fun vr => ((kr.1, vr.1), vr.2)

/-- Parse the members after the first: either a closing brace, or a comma and
a further member, repeatedly.  `fuel` bounds the number of members. -/
def parseMembersTail : Nat → List Char → Option (List (String × String) × List Char)
  | _, [] => none
  | 0, c :: rest => if c = '\x7d' then some ([], rest) else none
  | fuel + 1, c :: rest =>
    if c = '\x7d' then some ([], rest)
    else if c = ',' then
      (parseMember rest).bind fun kvr =>
        (parseMembersTail fuel kvr.2).map fun p => (kvr.1 :: p.1, p.2)
    else none

/-- Parse the part of a JSON object after the opening brace. -/
def parseObjectBody : List Char → Option (List (String × String))
  | [] => none
  | d :: rest₂ =>
    if d = '\x7d' then (if rest₂ = [] then some [] else none)
    else
      (parseMember (d :: rest₂)).bind fun kvr =>
        (parseMembersTail kvr.2.length kvr.2).bind fun p =>
          if p.2 = [] then some (kvr.1 :: p.1) else none

/-- Parse a whole JSON object of string members, requiring the input to be
consumed exactly. -/
def parseJsonObject (s : String) : Option (List (String × String)) :=
  match s.data with
  | [] => none
  | c :: rest => if c = '\x7b' then parseObjectBody rest else none

/-! ## The `main` pipeline (src/main.rs lines 135-156) -/

/-- Results delivered by `FuturesUnordered` in completion order: `π` lists the
input indices in the order the corresponding tasks complete. -/
def reorder {α : Type} (π : List Nat) (l : List α) : List α :=
  π.filterMap (fun i => l.get? i)

/-- The `r.expect("TODO: handle error")` step (src/main.rs line 145): `none`
embeds the panic on a task error. -/
def expectOk : Except String (WheelUrl × String) → Option (WheelUrl × String)
  | .ok v => some v
  | .error _ => none

/-- The `(url.file_name().expect("no file name"), json)` step
(src/main.rs line 146): `none` embeds the panic when no file name exists. -/
def keyedPair (r : WheelUrl × String) : Option (String × String) :=
  r.1.file_name.map (fun n => (n, r.2))

/-- Map a fallible function over a list, failing (panicking) as a whole when
any element fails. -/
def mapOption {α β : Type} (f : α → Option β) : List α → Option (List β)
  | [] => some []
  | a :: l => (f a).bind fun b => (mapOption f l).map fun r => b :: r

/-- `main` (src/main.rs lines 143-155): run every locator's task, consume the
results in completion order `π`, panic on any task error or missing file name
(`none`), and otherwise copy the encoded JSON object to standard output. -/
def mainModel (fetch : WheelUrl → Except String Archive) (π : List Nat)
    (urls : List WheelUrl) : Option String :=
  (mapOption (runModel fetch) urls).bind fun rs =>
    (mapOption expectOk (reorder π rs)).bind fun oks =>
      (mapOption keyedPair oks).map fun pairs => encodeMap pairs

/-! ## Lemmas: the metadata-entry search -/

/-- Whether one directory entry name (as decoded by `as_str().ok()`) matches
the metadata pattern; undecodable names never match. -/
def matchesEntry : Option String → Bool
  | some s => reMetadataMatch s
  | none => false

theorem findMetadataEntry_aux (names : List (Option String)) :
    ∀ k, ((List.enumFrom k names).filterMap (fun p => p.2.map (fun s => (p.1, s)))).findSome?
        (fun p => if reMetadataMatch p.2 then some p.1 else none)
      = names.findIdx? matchesEntry k := by
  induction names with
  | nil => intro k; rfl
  | cons hd tl ih =>
    intro k
    cases hd with
    | none =>
      simpa [List.enumFrom, List.findIdx?_cons, matchesEntry] using ih (k + 1)
    | some s =>
      by_cases hm : reMetadataMatch s <;>
        simp [List.enumFrom, List.findIdx?_cons, matchesEntry, hm, List.findSome?_cons,
          ih (k + 1)]

theorem findMetadataEntry_eq_findIdx (names : List (Option String)) :
    findMetadataEntry names = names.findIdx? matchesEntry :=
  findMetadataEntry_aux names 0

theorem findMetadataEntry_some_iff (names : List (Option String)) (i : Nat) :
    findMetadataEntry names = some i ↔
      ((∃ s, names.get? i = some (some s) ∧ reMetadataMatch s = true) ∧
        ∀ j, j < i → ∀ t, names.get? j = some (some t) → reMetadataMatch t = false) := by
  rw [findMetadataEntry_eq_findIdx, List.findIdx?_eq_some_iff_getElem]
  constructor
  · rintro ⟨h, hp, hprev⟩
    cases he : names[i] with
    | none => rw [he] at hp; simp [matchesEntry] at hp
    | some s =>
      rw [he] at hp
      refine ⟨⟨s, ?_, by simpa [matchesEntry] using hp⟩, ?_⟩
      · rw [List.get?_eq_getElem?, List.getElem?_eq_getElem h, he]
      · intro j hj t hget
        have hjlen : j < names.length := Nat.lt_trans hj h
        rw [List.get?_eq_getElem?, List.getElem?_eq_getElem hjlen] at hget
        have ht : names[j] = some t := by injection hget
        have hne := hprev j hj
        rw [ht] at hne
        simpa [matchesEntry] using hne
  · rintro ⟨⟨s, hget, hm⟩, hprev⟩
    have hlen : i < names.length := by
      by_contra hge
      rw [List.get?_eq_getElem?, List.getElem?_eq_none (Nat.le_of_not_lt hge)] at hget
      exact absurd hget (by simp)
    rw [List.get?_eq_getElem?, List.getElem?_eq_getElem hlen] at hget
    have he : names[i] = some s := by injection hget
    refine ⟨hlen, by simp [he, matchesEntry, hm], ?_⟩
    intro j hj
    have hjlen : j < names.length := Nat.lt_trans hj hlen
    cases hej : names[j] with
    | none => simp [matchesEntry]
    | some t =>
      have hgt : names.get? j = some (some t) := by
        rw [List.get?_eq_getElem?, List.getElem?_eq_getElem hjlen, hej]
      simp [matchesEntry, hprev j hj t hgt]

theorem findMetadataEntry_none_iff (names : List (Option String)) :
    findMetadataEntry names = none ↔
      ∀ j t, names.get? j = some (some t) → reMetadataMatch t = false := by
  rw [findMetadataEntry_eq_findIdx, List.findIdx?_eq_none_iff]
  constructor
  · intro h j t hget
    have hmem : (some t) ∈ names := by
      rw [List.get?_eq_getElem?] at hget
      exact List.getElem?_mem hget
    simpa [matchesEntry] using h (some t) hmem
  · intro h x hx
    cases x with
    | none => simp [matchesEntry]
    | some t =>
      obtain ⟨j, hj⟩ := List.get_of_mem hx
      have : names.get? j = some (some t) := by
        rw [List.get?_eq_getElem?, List.getElem?_eq_getElem j.isLt]
        simpa using congrArg some hj
      simp [matchesEntry, h j t this]

theorem findMetadataEntry_lt_length (names : List (Option String)) (i : Nat)
    (h : findMetadataEntry names = some i) : i < names.length := by
  obtain ⟨⟨s, hget, _⟩, _⟩ := (findMetadataEntry_some_iff names i).mp h
  by_contra hge
  rw [List.get?_eq_getElem?, List.getElem?_eq_none (Nat.le_of_not_lt hge)] at hget
  exact absurd hget (by simp)

/-! ## Lemmas: the backend cache -/

theorem findService_eq_none_iff (k : Origin) (l : List (Origin × Operator)) :
    findService k l = none ↔ k ∉ l.map Prod.fst := by
  induction l with
  | nil => simp [findService]
  | cons hd tl ih =>
    obtain ⟨k₂, op⟩ := hd
    simp only [findService, List.map_cons, List.mem_cons]
    by_cases hk : k₂ = k
    · subst hk; simp
    · rw [if_neg hk, ih]
      constructor
      · intro h hmem
        rcases hmem with he | hm
        · exact hk he.symm
        · exact h hm
      · intro h hm
        exact h (Or.inr hm)

theorem findService_of_mem (k : Origin) (l : List (Origin × Operator))
    (h : k ∈ l.map Prod.fst) : ∃ op, findService k l = some op := by
  cases hf : findService k l with
  | none => exact absurd ((findService_eq_none_iff k l).mp hf) (by simp [h])
  | some op => exact ⟨op, rfl⟩

/-- Invariant of the cache: the association list's keys are exactly the
construction log, and no origin was constructed twice. -/
def ServicesInv (s : Services) : Prop :=
  s.services.map Prod.fst = s.log ∧ s.log.Nodup

theorem ServicesInv_empty : ServicesInv Services.empty := by
  constructor <;> simp [Services.empty]

theorem findService_append (k : Origin) (l₁ l₂ : List (Origin × Operator)) :
    findService k (l₁ ++ l₂) =
      match findService k l₁ with
      | some op => some op
      | none => findService k l₂ := by
  induction l₁ with
  | nil => simp [findService]
  | cons hd tl ih =>
    obtain ⟨k₂, op⟩ := hd
    by_cases hk : k₂ = k <;> simp [findService, hk, ih]

theorem operator_spec (s : Services) (u : WheelUrl) (ep : String)
    (hep : u.endpoint = some ep) (hinv : ServicesInv s) :
    ∃ op s₂, s.operator u = some (op, s₂) ∧ ServicesInv s₂ ∧
      findService (u.url_type, ep) s₂.services = some op ∧
      (∀ o, o ∈ s₂.log ↔ o ∈ s.log ∨ o = (u.url_type, ep)) ∧
      ((u.url_type, ep) ∈ s.log → s₂ = s) := by
  obtain ⟨hkeys, hnodup⟩ := hinv
  unfold Services.operator
  rw [hep]
  simp only [Option.map_some']
  cases hf : findService (u.url_type, ep) s.services with
  | some op =>
    have hmem : (u.url_type, ep) ∈ s.log := by
      by_contra hnm
      rw [← hkeys] at hnm
      rw [(findService_eq_none_iff _ _).mpr hnm] at hf
      exact absurd hf (by simp)
    exact ⟨op, s, rfl, ⟨hkeys, hnodup⟩, hf,
      fun o => ⟨fun h => Or.inl h, fun h => h.elim id (fun he => he ▸ hmem)⟩,
      fun _ => rfl⟩
  | none =>
    have hnot : (u.url_type, ep) ∉ s.log := by
      rw [← hkeys]
      exact (findService_eq_none_iff _ _).mp hf
    refine ⟨⟨(u.url_type, ep), s.log.length⟩,
      ⟨s.services ++ [((u.url_type, ep), ⟨(u.url_type, ep), s.log.length⟩)],
        s.log ++ [(u.url_type, ep)]⟩, rfl, ⟨?_, ?_⟩, ?_, ?_, ?_⟩
    · simp [hkeys]
    · simp [List.nodup_append, hnodup, hnot]
    · rw [findService_append, hf]
      simp [findService]
    · intro o; simp
    · intro hmem; exact absurd hmem hnot

/-! ## Lemmas: the JSON encoder parses back to its input -/

theorem parseHexDigit_hexDigitChar (m : Nat) (h : m < 16) :
    parseHexDigit (hexDigitChar m) = some m := by
  interval_cases m <;> decide

theorem char_ofNat_toNat (c : Char) : Char.ofNat c.toNat = c := by
  apply Char.eq_of_val_eq
  have hv : c.toNat.isValidChar := c.valid
  simp only [Char.ofNat, dif_pos hv, Char.ofNatAux]
  apply UInt32.eq_of_val_eq
  simp [Char.toNat, UInt32.toNat, UInt32.val]
  apply Fin.eq_of_val_eq
  rfl

theorem parseEscape_control (c : Char) (hc : c.toNat < 32) (rest : List Char) :
    parseEscape
        ('u' :: '0' :: '0' :: hexDigitChar (c.toNat / 16) :: hexDigitChar (c.toNat % 16) :: rest)
      = some (c, rest) := by
  have h₁ : c.toNat / 16 < 16 := by omega
  have h₂ : c.toNat % 16 < 16 := Nat.mod_lt _ (by omega)
  have hd0 : parseHexDigit '0' = some 0 := by decide
  rw [parseEscape]
  rw [if_neg (by decide), if_neg (by decide), if_pos rfl]
  simp only [hd0, parseHexDigit_hexDigitChar _ h₁, parseHexDigit_hexDigitChar _ h₂]
  have hn : ((0 * 16 + 0) * 16 + c.toNat / 16) * 16 + c.toNat % 16 = c.toNat := by omega
  simp only [hn]
  rw [if_pos (by omega)]
  rw [char_ofNat_toNat]

theorem parseStringBody_quote (rest : List Char) :
    parseStringBody ('"' :: rest) = some ([], rest) := by
  simp [parseStringBody]

theorem parseStringBody_ordinary (c : Char) (l : List Char)
    (h₁ : ¬ c = '"') (h₂ : ¬ c = '\\') :
    parseStringBody (c :: l) = (parseStringBody l).map (fun p => (c :: p.1, p.2)) := by
  rw [parseStringBody, if_neg h₁, if_neg h₂]

theorem parseStringBody_escape (l : List Char) (ch : Char) (l₂ : List Char)
    (h : parseEscape l = some (ch, l₂)) :
    parseStringBody ('\\' :: l) = (parseStringBody l₂).map (fun p => (ch :: p.1, p.2)) := by
  rw [parseStringBody, if_neg (by decide), if_pos rfl]
  split
  · rename_i heq; rw [h] at heq; cases heq
  · rename_i ch₂ l₃ heq
    rw [h] at heq
    cases heq
    rfl

theorem escapeChar_quote : escapeChar '"' = ['\\', '"'] := rfl

theorem escapeChar_backslash : escapeChar '\\' = ['\\', '\\'] := rfl

theorem escapeChar_control (c : Char) (hq : ¬ c = '"') (hb : ¬ c = '\\')
    (hc : c.toNat < 32) :
    escapeChar c =
      ['\\', 'u', '0', '0', hexDigitChar (c.toNat / 16), hexDigitChar (c.toNat % 16)] := by
  unfold escapeChar
  rw [if_neg hq, if_neg hb, if_pos hc]

theorem escapeChar_plain (c : Char) (hq : ¬ c = '"') (hb : ¬ c = '\\')
    (hc : ¬ c.toNat < 32) : escapeChar c = [c] := by
  unfold escapeChar
  rw [if_neg hq, if_neg hb, if_neg hc]

theorem parseEscape_quote (rest : List Char) :
    parseEscape ('"' :: rest) = some ('"', rest) := rfl

theorem parseEscape_backslash (rest : List Char) :
    parseEscape ('\\' :: rest) = some ('\\', rest) := rfl

theorem parseStringBody_escapeBody (cs : List Char) :
    ∀ rest, parseStringBody (escapeBody cs ++ '"' :: rest) = some (cs, rest) := by
  induction cs with
  | nil => intro rest; simpa [escapeBody] using parseStringBody_quote rest
  | cons c cs ih =>
    intro rest
    show parseStringBody ((escapeChar c ++ escapeBody cs) ++ '"' :: rest) = _
    rw [List.append_assoc]
    by_cases hq : c = '"'
    · subst hq
      rw [escapeChar_quote, List.cons_append, List.cons_append, List.nil_append,
        parseStringBody_escape _ _ _ (parseEscape_quote _), ih rest]
      rfl
    · by_cases hb : c = '\\'
      · subst hb
        rw [escapeChar_backslash, List.cons_append, List.cons_append, List.nil_append,
          parseStringBody_escape _ _ _ (parseEscape_backslash _), ih rest]
        rfl
      · by_cases hc : c.toNat < 32
        · rw [escapeChar_control c hq hb hc]
          simp only [List.cons_append, List.nil_append]
          rw [parseStringBody_escape _ _ _ (parseEscape_control c hc _), ih rest]
          rfl
        · rw [escapeChar_plain c hq hb hc, List.cons_append, List.nil_append,
            parseStringBody_ordinary c _ hq hb, ih rest]
          rfl

theorem parseString_escapeString (s : String) (rest : List Char) :
    parseString ((escapeString s).data ++ rest) = some (s, rest) := by
  show parseString (("\"" ++ String.mk (escapeBody s.data) ++ "\"").data ++ rest) = _
  rw [String.data_append, String.data_append]
  have hq : ("\"" : String).data = ['"'] := rfl
  have hmk : (String.mk (escapeBody s.data)).data = escapeBody s.data := rfl
  rw [hq, hmk]
  show parseString ('"' :: (escapeBody s.data ++ ['"'] ++ rest)) = _
  rw [parseString, if_pos rfl, List.append_assoc, List.cons_append, List.nil_append,
    parseStringBody_escapeBody s.data rest]
  cases s
  rfl

theorem parseMember_encodeMember (p : String × String) (rest : List Char) :
    parseMember ((encodeMember p).data ++ rest) = some (p, rest) := by
  obtain ⟨k, v⟩ := p
  have hc : (":" : String).data = [':'] := rfl
  show parseMember (((escapeString k ++ ":") ++ escapeString v).data ++ rest) = _
  rw [String.data_append, String.data_append, hc, List.append_assoc, List.append_assoc,
    List.singleton_append]
  rw [parseMember, parseString_escapeString]
  simp only [Option.bind]
  have hx : expectChar ':' (':' :: ((escapeString v).data ++ rest))
      = some ((escapeString v).data ++ rest) := by simp [expectChar]
  rw [hx]
  simp only [Option.bind]
  rw [parseString_escapeString]
  rfl

theorem parseMembersTail_encodeTail (l : List (String × String)) :
    ∀ fuel, l.length ≤ fuel → ∀ rest,
      parseMembersTail fuel ((encodeTail l).data ++ '\x7d' :: rest) = some (l, rest) := by
  induction l with
  | nil =>
    intro fuel _ rest
    show parseMembersTail fuel (("" : String).data ++ '\x7d' :: rest) = _
    have he : ("" : String).data = [] := rfl
    rw [he, List.nil_append]
    cases fuel <;> simp [parseMembersTail]
  | cons p tl ih =>
    intro fuel hfuel rest
    match fuel, hfuel with
    | fuel + 1, hfuel =>
      show parseMembersTail (fuel + 1)
          ((("," ++ encodeMember p) ++ encodeTail tl).data ++ '\x7d' :: rest) = _
      rw [String.data_append, String.data_append]
      have hcm : ("," : String).data = [','] := rfl
      rw [hcm, List.append_assoc, List.append_assoc, List.singleton_append]
      rw [parseMembersTail, if_neg (by decide), if_pos rfl]
      rw [parseMember_encodeMember p]
      simp only [Option.bind]
      rw [ih fuel (by simpa using hfuel) rest]
      rfl

theorem encodeTail_length (l : List (String × String)) :
    l.length ≤ ((encodeTail l).data).length := by
  induction l with
  | nil => simp [encodeTail]
  | cons p tl ih =>
    show tl.length + 1 ≤ ((("," ++ encodeMember p) ++ encodeTail tl).data).length
    rw [String.data_append, String.data_append, List.length_append, List.length_append]
    have h1 : (("," : String).data).length = 1 := rfl
    omega

theorem escapeString_head (s : String) :
    ∃ t, (escapeString s).data = '"' :: t := by
  show ∃ t, (("\"" ++ String.mk (escapeBody s.data) ++ "\"").data) = '"' :: t
  rw [String.data_append, String.data_append]
  exact ⟨_, rfl⟩

theorem parseJsonObject_data (s : String) (rest : List Char)
    (h : s.data = '\x7b' :: rest) : parseJsonObject s = parseObjectBody rest := by
  rw [parseJsonObject, h]
  rfl

theorem parseJsonObject_encodeMap (l : List (String × String)) :
    parseJsonObject (encodeMap l) = some l := by
  cases l with
  | nil => rfl
  | cons p tl =>
    obtain ⟨t, ht⟩ := escapeString_head p.1
    have hA : (encodeMember p).data = '"' :: (t ++ ((":" ++ escapeString p.2).data)) := by
      show ((escapeString p.1 ++ ":") ++ escapeString p.2).data = _
      rw [String.data_append, String.data_append, ht, ← String.data_append]
      simp
    have hdata : (encodeMap (p :: tl)).data =
        '\x7b' :: ((encodeMember p).data ++ ((encodeTail tl).data ++ ['\x7d'])) := by
      show ((("\x7b" ++ (encodeMember p ++ encodeTail tl)) ++ "\x7d").data) = _
      rw [String.data_append, String.data_append, String.data_append]
      have hob : ("\x7b" : String).data = ['\x7b'] := rfl
      have hcb : ("\x7d" : String).data = ['\x7d'] := rfl
      rw [hob, hcb]
      simp
    rw [parseJsonObject_data _ _ hdata, hA, List.cons_append]
    rw [parseObjectBody, if_neg (by decide), ← List.cons_append, ← hA]
    rw [parseMember_encodeMember p ((encodeTail tl).data ++ ['\x7d'])]
    simp only [Option.bind]
    have hbound : tl.length ≤ ((encodeTail tl).data ++ ['\x7d']).length := by
      have := encodeTail_length tl
      simp only [List.length_append]
      omega
    have htail : parseMembersTail ((encodeTail tl).data ++ ['\x7d']).length
        ((encodeTail tl).data ++ ['\x7d']) = some (tl, []) := by
      have h := parseMembersTail_encodeTail tl _ hbound []
      simpa using h
    rw [htail]
    rfl

theorem processAll_spec (urls : List WheelUrl) :
    ∀ s : Services, (∀ u ∈ urls, (u.endpoint).isSome) → ServicesInv s →
      ∃ s₂, processAll urls s = some s₂ ∧ ServicesInv s₂ ∧
        (∀ o, o ∈ s₂.log ↔ o ∈ s.log ∨
          ∃ u ∈ urls, ∃ ep, u.endpoint = some ep ∧ o = (u.url_type, ep)) := by
  induction urls with
  | nil =>
    intro s _ hinv
    exact ⟨s, rfl, hinv, fun o => by simp⟩
  | cons hd tl ih =>
    intro s hep hinv
    obtain ⟨ep, hhd⟩ := Option.isSome_iff_exists.mp (hep hd (by simp))
    obtain ⟨op, s₂, hop, hinv₂, _, hlog₂, _⟩ := operator_spec s hd ep hhd hinv
    obtain ⟨s₃, hrun, hinv₃, hlog₃⟩ := ih s₂ (fun u hu => hep u (by simp [hu])) hinv₂
    refine ⟨s₃, ?_, hinv₃, ?_⟩
    · simp [processAll, hop, hrun]
    · intro o
      rw [hlog₃ o]
      constructor
      · rintro (h₂ | ⟨u, hu, ep₂, hep₂, rfl⟩)
        · rcases (hlog₂ o).mp h₂ with h | rfl
          · exact Or.inl h
          · exact Or.inr ⟨hd, by simp, ep, hhd, rfl⟩
        · exact Or.inr ⟨u, by simp [hu], ep₂, hep₂, rfl⟩
      · rintro (h | ⟨u, hu, ep₂, hep₂, rfl⟩)
        · exact Or.inl ((hlog₂ o).mpr (Or.inl h))
        · rcases List.mem_cons.mp hu with rfl | hu₂
          · rw [hhd] at hep₂
            injection hep₂ with he
            exact Or.inl ((hlog₂ _).mpr (Or.inr (by rw [he])))
          · exact Or.inr ⟨u, hu₂, ep₂, hep₂, rfl⟩

/-! ## Lemmas: the orchestrator and encoder pipeline -/

theorem mapOption_eq_some_iff {α β : Type} (f : α → Option β) :
    ∀ (l : List α) (r : List β),
      mapOption f l = some r ↔ List.Forall₂ (fun a b => f a = some b) l r := by
  intro l
  induction l with
  | nil => intro r; cases r <;> simp [mapOption]
  | cons a l ih =>
    intro r
    cases hfa : f a with
    | none =>
      cases r with
      | nil => simp [mapOption, hfa]
      | cons b r₂ => simp [mapOption, hfa, List.forall₂_cons]
    | some b =>
      cases r with
      | nil => simp [mapOption, hfa]
      | cons b₂ r₂ =>
        simp only [mapOption, hfa, Option.some_bind, Option.map_eq_some',
          List.forall₂_cons, ih]
        constructor
        · rintro ⟨r₃, h₃, he⟩
          injection he with he₁ he₂
          subst he₁; subst he₂
          exact ⟨rfl, h₃⟩
        · rintro ⟨he, h₃⟩
          injection he with he₁
          subst he₁
          exact ⟨r₂, h₃, rfl⟩

theorem mapOption_eq_none_of_mem {α β : Type} (f : α → Option β) (a : α) :
    ∀ l : List α, a ∈ l → f a = none → mapOption f l = none := by
  intro l
  induction l with
  | nil => intro h; simp at h
  | cons b l ih =>
    intro hmem hfa
    rcases List.mem_cons.mp hmem with rfl | hmem₂
    · simp [mapOption, hfa]
    · cases hfb : f b with
      | none => simp [mapOption, hfb]
      | some c => simp [mapOption, hfb, ih hmem₂ hfa]

theorem mapOption_isSome {α β : Type} (f : α → Option β) :
    ∀ l : List α, (∀ a ∈ l, (f a).isSome) → ∃ r, mapOption f l = some r := by
  intro l
  induction l with
  | nil => intro _; exact ⟨[], rfl⟩
  | cons a l ih =>
    intro h
    obtain ⟨b, hb⟩ := Option.isSome_iff_exists.mp (h a (by simp))
    obtain ⟨r, hr⟩ := ih (fun x hx => h x (by simp [hx]))
    exact ⟨b :: r, by simp [mapOption, hb, hr]⟩

theorem forall₂_get?_left {α β : Type} {R : α → β → Prop} :
    ∀ {l : List α} {r : List β}, List.Forall₂ R l r →
      ∀ i a, l.get? i = some a → ∃ b, r.get? i = some b ∧ R a b := by
  intro l r h
  induction h with
  | nil => intro i a ha; simp at ha
  | cons hab htl ih =>
    intro i a ha
    cases i with
    | zero =>
      simp only [List.get?_cons_zero] at ha ⊢
      injection ha with ha₁
      subst ha₁
      exact ⟨_, rfl, hab⟩
    | succ i =>
      simp only [List.get?_cons_succ] at ha ⊢
      exact ih i a ha

theorem forall₂_get?_none {α β : Type} {R : α → β → Prop} :
    ∀ {l : List α} {r : List β}, List.Forall₂ R l r →
      ∀ i, l.get? i = none → r.get? i = none := by
  intro l r h
  induction h with
  | nil => intro i _; simp
  | cons hab htl ih =>
    intro i hi
    cases i with
    | zero => simp at hi
    | succ i =>
      simp only [List.get?_cons_succ] at hi ⊢
      exact ih i hi

/-- A pointwise fallible map sends a completion-order selection of related
inputs to the same selection of related outputs. -/
theorem mapOption_reorder {α β : Type} (f : α → Option β) {l : List α} {r : List β}
    (h : List.Forall₂ (fun a b => f a = some b) l r) :
    ∀ π : List Nat, mapOption f (reorder π l) = some (reorder π r) := by
  intro π
  induction π with
  | nil => rfl
  | cons j π ih =>
    show mapOption f (List.filterMap (fun i => l.get? i) (j :: π)) = _
    rw [List.filterMap_cons]
    cases hj : l.get? j with
    | none =>
      have hrj : r.get? j = none := forall₂_get?_none h j hj
      show mapOption f (reorder π l) = _
      rw [ih]
      show _ = some (List.filterMap (fun i => r.get? i) (j :: π))
      rw [List.filterMap_cons, hrj]
      rfl
    | some a =>
      obtain ⟨b, hrj, hfa⟩ := forall₂_get?_left h j a hj
      show mapOption f (a :: reorder π l) = _
      rw [mapOption, hfa, Option.some_bind, ih]
      show _ = some (List.filterMap (fun i => r.get? i) (j :: π))
      rw [List.filterMap_cons, hrj]
      rfl

theorem mem_reorder_of_get? {α : Type} (π : List Nat) (l : List α) (j : Nat) (a : α)
    (hj : j ∈ π) (ha : l.get? j = some a) : a ∈ reorder π l := by
  induction π with
  | nil => simp at hj
  | cons i π ih =>
    show a ∈ List.filterMap (fun i => l.get? i) (i :: π)
    rw [List.filterMap_cons]
    rcases List.mem_cons.mp hj with rfl | hj₂
    · rw [ha]; simp
    · cases hli : l.get? i with
      | none => exact ih hj₂
      | some b => exact List.mem_cons_of_mem _ (ih hj₂)

theorem filterMap_get?_range {α : Type} (l : List α) :
    (List.range l.length).filterMap (fun i => l.get? i) = l := by
  induction l with
  | nil => simp
  | cons a tl ih =>
    rw [List.length_cons, List.range_succ_eq_map, List.filterMap_cons, List.filterMap_map]
    have hcomp : ((fun i => (a :: tl).get? i) ∘ Nat.succ) = fun i => tl.get? i := by
      funext i
      rfl
    rw [hcomp, ih]
    rfl

theorem reorder_perm {α : Type} (π : List Nat) (l : List α)
    (h : π.Perm (List.range l.length)) : (reorder π l).Perm l := by
  have hp := List.Perm.filterMap (fun i => l.get? i) h
  rw [filterMap_get?_range] at hp
  exact hp

theorem runModel_ok (fetch : WheelUrl → Except String Archive) (url : WheelUrl)
    (sv : Service) (ar : Archive) (i : Nat) (e : ZipEntry) (text : String)
    (hsv : url.service = some sv) (hfetch : fetch url = .ok ar)
    (hfind : findMetadataEntry (ar.map ZipEntry.filenameUtf8) = some i)
    (hget : ar.get? i = some e) (hcontent : e.contentUtf8 = some text) :
    runModel fetch url = some (.ok (url, text)) := by
  rw [runModel, hsv]
  simp only [hfetch, hfind, hget, hcontent]

theorem runModel_noMetadata (fetch : WheelUrl → Except String Archive) (url : WheelUrl)
    (sv : Service) (ar : Archive)
    (hsv : url.service = some sv) (hfetch : fetch url = .ok ar)
    (hfind : findMetadataEntry (ar.map ZipEntry.filenameUtf8) = none) :
    runModel fetch url = some (.error "no METADATA file") := by
  rw [runModel, hsv]
  simp only [hfetch, hfind]

/-- The per-locator success relation used to compose the pipeline: the
locator's task succeeds with text `p.2`, and its display name is `p.1`. -/
def TaskSpec (fetch : WheelUrl → Except String Archive)
    (u : WheelUrl) (p : String × String) : Prop :=
  runModel fetch u = some (.ok (u, p.2)) ∧ u.file_name = some p.1

theorem mainModel_chains (fetch : WheelUrl → Except String Archive) :
    ∀ {urls : List WheelUrl} {pairs : List (String × String)},
      List.Forall₂ (TaskSpec fetch) urls pairs →
      List.Forall₂ (fun u r => runModel fetch u = some r) urls
          (List.zipWith (fun u p => Except.ok (u, p.2)) urls pairs) ∧
      List.Forall₂ (fun r v => expectOk r = some v)
          (List.zipWith (fun u p => Except.ok (u, p.2)) urls pairs)
          (List.zipWith (fun (u : WheelUrl) (p : String × String) => (u, p.2)) urls pairs) ∧
      List.Forall₂ (fun v q => keyedPair v = some q)
          (List.zipWith (fun (u : WheelUrl) (p : String × String) => (u, p.2)) urls pairs)
          pairs := by
  intro urls pairs h
  induction h with
  | nil => exact ⟨.nil, .nil, .nil⟩
  | @cons u p urls₂ pairs₂ hab htl ih =>
    obtain ⟨h1, h2, h3⟩ := ih
    refine ⟨.cons hab.1 h1, .cons rfl h2, .cons ?_ h3⟩
    show keyedPair (u, p.2) = some p
    simp [keyedPair, hab.2]

/-- Successful end-to-end run: every task succeeds and has a display name, so
`main` copies the JSON object of the completion-order pairs to stdout. -/
theorem mainModel_ok (fetch : WheelUrl → Except String Archive) (π : List Nat)
    (urls : List WheelUrl) (pairs : List (String × String))
    (h : List.Forall₂ (TaskSpec fetch) urls pairs) :
    mainModel fetch π urls = some (encodeMap (reorder π pairs)) := by
  obtain ⟨h1, h2, h3⟩ := mainModel_chains fetch h
  rw [mainModel, (mapOption_eq_some_iff _ urls _).mpr h1, Option.some_bind,
    mapOption_reorder _ h2 π, Option.some_bind, mapOption_reorder _ h3 π]
  rfl

/-- Any single task error aborts `main` (the `expect` panic), provided the
erroring task's completion is consumed (its index appears in `π`). -/
theorem mainModel_none_of_error (fetch : WheelUrl → Except String Archive)
    (π : List Nat) (urls : List WheelUrl) (i : Nat) (u : WheelUrl) (e : String)
    (hsome : ∀ v ∈ urls, (runModel fetch v).isSome)
    (hi : urls.get? i = some u) (herr : runModel fetch u = some (.error e))
    (hiπ : i ∈ π) :
    mainModel fetch π urls = none := by
  obtain ⟨rs, hrs⟩ := mapOption_isSome _ urls hsome
  have hf := (mapOption_eq_some_iff _ urls rs).mp hrs
  obtain ⟨r, hri, hru⟩ := forall₂_get?_left hf i u hi
  rw [herr] at hru
  injection hru with hru₂
  have hmem : Except.error e ∈ reorder π rs :=
    mem_reorder_of_get? π rs i _ hiπ (by rw [hri, ← hru₂])
  rw [mainModel, hrs, Option.some_bind,
    mapOption_eq_none_of_mem expectOk _ (reorder π rs) hmem rfl]
  rfl

theorem forall₂_expectOk_map_ok (V : List (WheelUrl × String)) :
    List.Forall₂ (fun r v => expectOk r = some v) (V.map Except.ok) V := by
  induction V with
  | nil => exact .nil
  | cons v V ih => exact .cons rfl ih

theorem forall₂_run_map_ok (fetch : WheelUrl → Except String Archive) :
    ∀ {urls : List WheelUrl} {V : List (WheelUrl × String)},
      List.Forall₂ (fun u v => runModel fetch u = some (.ok v)) urls V →
      List.Forall₂ (fun u r => runModel fetch u = some r) urls (V.map Except.ok) := by
  intro urls V hok
  induction hok with
  | nil => exact .nil
  | cons hab htl ih => exact .cons hab ih

/-- All tasks succeeding but one lacking a file name also aborts `main`
(the second `expect` panic), provided that task's completion is consumed. -/
theorem mainModel_none_of_noname (fetch : WheelUrl → Except String Archive)
    (π : List Nat) (urls : List WheelUrl) (V : List (WheelUrl × String))
    (i : Nat) (v : WheelUrl × String)
    (hok : List.Forall₂ (fun u v => runModel fetch u = some (.ok v)) urls V)
    (hi : V.get? i = some v) (hname : v.1.file_name = none) (hiπ : i ∈ π) :
    mainModel fetch π urls = none := by
  have h1 : List.Forall₂ (fun u r => runModel fetch u = some r) urls (V.map Except.ok) :=
    forall₂_run_map_ok fetch hok
  have hmem : v ∈ reorder π V := mem_reorder_of_get? π V i v hiπ hi
  rw [mainModel, (mapOption_eq_some_iff _ urls _).mpr h1, Option.some_bind,
    mapOption_reorder _ (forall₂_expectOk_map_ok V) π, Option.some_bind,
    mapOption_eq_none_of_mem keyedPair v _ hmem (by simp [keyedPair, hname])]
  rfl

/-! ## Lemmas: streaming prefixes of the encoder output -/

theorem encodeTail_take (l : List (String × String)) :
    ∀ k, ∃ r, encodeTail l = encodeTail (l.take k) ++ r := by
  induction l with
  | nil =>
    intro k
    exact ⟨"", by simp [encodeTail, String.append_empty]⟩
  | cons p tl ih =>
    intro k
    cases k with
    | zero => exact ⟨encodeTail (p :: tl), (String.empty_append _).symm⟩
    | succ k =>
      obtain ⟨r, hr⟩ := ih k
      refine ⟨r, ?_⟩
      show ("," ++ encodeMember p) ++ encodeTail tl
          = (("," ++ encodeMember p) ++ encodeTail (tl.take k)) ++ r
      rw [hr, ← String.append_assoc]

theorem encodeMembers_take (l : List (String × String)) (k : Nat) :
    ∃ r, encodeMembers l = encodeMembers (l.take k) ++ r := by
  cases l with
  | nil => exact ⟨"", by simp [encodeMembers, String.append_empty]⟩
  | cons p tl =>
    cases k with
    | zero => exact ⟨encodeMembers (p :: tl), (String.empty_append _).symm⟩
    | succ k =>
      obtain ⟨r, hr⟩ := encodeTail_take tl k
      refine ⟨r, ?_⟩
      show encodeMember p ++ encodeTail tl = (encodeMember p ++ encodeTail (tl.take k)) ++ r
      rw [hr, ← String.append_assoc]

/-- What the encoder has emitted after the first `k` completions is a prefix
of the final output byte stream. -/
theorem encodeMap_take_prefix (l : List (String × String)) (k : Nat) :
    ∃ r, encodeMap l = encodeMapPartial (l.take k) ++ r := by
  obtain ⟨r, hr⟩ := encodeMembers_take l k
  refine ⟨r ++ "\x7d", ?_⟩
  show ("\x7b" ++ encodeMembers l) ++ "\x7d"
      = ("\x7b" ++ encodeMembers (l.take k)) ++ (r ++ "\x7d")
  rw [hr, String.append_assoc, String.append_assoc, String.append_assoc]

/-! ## Lemmas: file names and path segments -/

/-- Dot-segment freedom of a path.  Paths produced by the WHATWG basic URL
parser are dot-segment-free (it removes `.` and `..` path segments while
parsing), but paths from the bare-path fallback `Url::from_file_path` are
NOT: that route keeps `..` segments (and this file's model keeps the path
string verbatim), so this property may fail for fallback locators. -/
def DotFree (p : String) : Prop :=
  ∀ c ∈ splitSlash p, c ≠ "." ∧ c ≠ ".."

/-- Stated from the spec's words (sections 4.1 and 8): the final path segment
of a path, i.e. its last nonempty `/`-separated component. -/
def finalPathSegment (s : String) : Option String :=
  ((splitSlash s).filter (fun c => decide (c ≠ ""))).getLast?

theorem pathFileName_eq_finalPathSegment (p : String) (h : DotFree p) :
    pathFileName p = finalPathSegment p := by
  unfold pathFileName finalPathSegment
  have hfilter : (splitSlash p).filter (fun c => decide (c ≠ "" ∧ c ≠ "."))
      = (splitSlash p).filter (fun c => decide (c ≠ "")) := by
    apply List.filter_congr
    intro c hc
    have h₁ := (h c hc).1
    by_cases he : c = "" <;> simp [he, h₁]
  rw [hfilter]
  cases hl : ((splitSlash p).filter (fun c => decide (c ≠ ""))).getLast? with
  | none => rfl
  | some c =>
    have hcmem : c ∈ (splitSlash p).filter (fun c => decide (c ≠ "")) :=
      List.mem_of_getLast?_eq_some hl
    have h₂ := (h c (List.mem_of_mem_filter hcmem)).2
    show (if c = ".." then none else some c) = some c
    rw [if_neg h₂]

/-- The stronger file-name filter (drop empty and `.` components) is the
final-segment filter (drop empty components) followed by dropping `.`. -/
theorem pathFilter_split (l : List String) :
    l.filter (fun c => decide (c ≠ "" ∧ c ≠ "."))
      = (l.filter (fun c => decide (c ≠ ""))).filter (fun c => decide (c ≠ ".")) := by
  rw [List.filter_filter]
  apply List.filter_congr
  intro c _
  rw [Bool.decide_and, Bool.and_comm]

/-- When the final nonempty segment of a path is not `.`, `PathBuf::file_name`
sees exactly that segment: it returns it when it is a normal name, and `None`
when it is `..`. -/
theorem pathFileName_of_finalPathSegment (p : String) (seg : String)
    (h : finalPathSegment p = some seg) (hdot : seg ≠ ".") :
    pathFileName p = (if seg = ".." then none else some seg) := by
  obtain ⟨ys, hys⟩ := List.getLast?_eq_some_iff.mp h
  unfold pathFileName
  rw [pathFilter_split, hys, List.filter_append]
  have hseg : List.filter (fun c => decide (c ≠ ".")) [seg] = [seg] := by
    simp [hdot]
  rw [hseg, List.getLast?_concat]

/-- A path with no nonempty segment has no file name either. -/
theorem pathFileName_of_no_segment (p : String)
    (h : finalPathSegment p = none) : pathFileName p = none := by
  have hA : (splitSlash p).filter (fun c => decide (c ≠ "")) = [] :=
    List.getLast?_eq_none_iff.mp h
  unfold pathFileName
  rw [pathFilter_split, hA]
  rfl

/-! ## Concrete fixtures used by witnesses and counterexamples -/

/-- The locator parsed from `file:///tmp/a.whl`. -/
def urlA : WheelUrl := ⟨.File, ⟨"file", none, "/tmp/a.whl"⟩⟩

/-- The locator parsed from `file:///tmp/b.whl`. -/
def urlB : WheelUrl := ⟨.File, ⟨"file", none, "/tmp/b.whl"⟩⟩

/-- The locator parsed from `http://example.com` (URL path normalizes to `/`,
which has no final segment). -/
def urlRootHttp : WheelUrl := ⟨.Httpx, ⟨"http", some "example.com", "/"⟩⟩

/-- The locator parsed from `file:///` (path `/`, no final segment). -/
def urlRootFile : WheelUrl := ⟨.File, ⟨"file", none, "/"⟩⟩

/-- An archive whose single entry is a matching metadata entry. -/
def archiveA : Archive := [⟨some "pkgA-1.0.dist-info/METADATA", some "Name: A"⟩]

/-- An archive whose second entry is the first metadata match. -/
def archiveB : Archive :=
  [⟨some "x.txt", some "hello"⟩, ⟨some "pkgB-2.0.dist-info/METADATA", some "Name: B"⟩]

/-- An archive with no entry matching the metadata pattern. -/
def archiveNoMeta : Archive := [⟨some "x.txt", some "hello"⟩, ⟨some "METADATA", some "m"⟩]

/-- A fetch serving `archiveA` for `urlA` and `archiveB` elsewhere. -/
def fetchAB : WheelUrl → Except String Archive :=
  fun u => if u = urlA then .ok archiveA else .ok archiveB

/-- A fetch serving `archiveA` for `urlA` and a metadata-less archive
elsewhere. -/
def fetchNoMeta : WheelUrl → Except String Archive :=
  fun u => if u = urlA then .ok archiveA else .ok archiveNoMeta

/-- A fetch serving one matching entry with content `B` everywhere. -/
def fetchRootB : WheelUrl → Except String Archive :=
  fun _ => .ok [⟨some "pkg.dist-info/METADATA", some "B"⟩]

/-- A fetch serving one matching entry with content `T` everywhere. -/
def fetchRootT : WheelUrl → Except String Archive :=
  fun _ => .ok [⟨some "p/METADATA", some "T"⟩]

/-! ## The claims -/

/-- C1: For every opened archive directory, the metadata search scans entry
names in the order the central directory presents them and returns the index
of the first entry whose full path matches the suffix pattern `*/METADATA`
(first part: the returned index is a match and nothing earlier matches;
second part: `none` exactly when no entry matches); if no entry matches, the
task fails with the not-found error `no METADATA file` (third part). -/
theorem c1_metadata_search (names : List (Option String)) (i : Nat)
    (fetch : WheelUrl → Except String Archive) (url : WheelUrl)
    (sv : Service) (ar : Archive) :
    (findMetadataEntry names = some i ↔
      ((∃ s, names.get? i = some (some s) ∧ reMetadataMatch s = true) ∧
        ∀ j, j < i → ∀ t, names.get? j = some (some t) → reMetadataMatch t = false)) ∧
    (findMetadataEntry names = none ↔
      ∀ j t, names.get? j = some (some t) → reMetadataMatch t = false) ∧
    (url.service = some sv → fetch url = .ok ar →
      findMetadataEntry (ar.map ZipEntry.filenameUtf8) = none →
      runModel fetch url = some (.error "no METADATA file")) :=
  ⟨findMetadataEntry_some_iff names i, findMetadataEntry_none_iff names,
    fun hsv hf hn => runModel_noMetadata fetch url sv ar hsv hf hn⟩

/-- C1 witness: on a concrete directory the search returns the first matching
index (2), skipping a non-matching and an undecodable name; on a concrete
archive with no match, the task fails with `no METADATA file`. -/
theorem c1_metadata_search_witness :
    (((∃ s, [some "x.txt", none, some "a/METADATA", some "b/METADATA"].get? 2
          = some (some s) ∧ reMetadataMatch s = true) ∧
      ∀ j, j < 2 → ∀ t,
        [some "x.txt", none, some "a/METADATA", some "b/METADATA"].get? j
          = some (some t) → reMetadataMatch t = false)) ∧
    runModel fetchNoMeta urlB = some (.error "no METADATA file") :=
  ⟨((c1_metadata_search [some "x.txt", none, some "a/METADATA", some "b/METADATA"] 2
      fetchNoMeta urlB (Service.File "/") archiveNoMeta).1).mp (by decide),
   (c1_metadata_search [] 0 fetchNoMeta urlB (Service.File "/") archiveNoMeta).2.2
      rfl rfl (by decide)⟩

/-- The archive-level success specification of one locator's task: the backend
builds, the fetch yields an archive whose first matching entry decodes to the
value `p.2`, and the locator's display name is the key `p.1`. -/
def FetchSpec (fetch : WheelUrl → Except String Archive) (u : WheelUrl)
    (p : String × String) : Prop :=
  ∃ sv ar i e, u.service = some sv ∧ fetch u = .ok ar ∧
    findMetadataEntry (ar.map ZipEntry.filenameUtf8) = some i ∧
    ar.get? i = some e ∧ e.contentUtf8 = some p.2 ∧ u.file_name = some p.1

theorem fetchSpec_taskSpec {fetch : WheelUrl → Except String Archive}
    {u : WheelUrl} {p : String × String} (h : FetchSpec fetch u p) :
    TaskSpec fetch u p := by
  obtain ⟨sv, ar, i, e, hsv, hf, hfind, hget, hcontent, hname⟩ := h
  exact ⟨runModel_ok fetch u sv ar i e p.2 hsv hf hfind hget hcontent, hname⟩

/-- C2 (amended): for every set of input locators whose per-locator fetches
all succeed AND whose display names are all derivable, the program writes a
single syntactically valid JSON object (it parses back) with exactly one
member per locator (the members are a permutation of the per-locator pairs),
whose key is the locator's display name and whose value is the matched
METADATA entry's bytes decoded as UTF-8 (all enforced by `FetchSpec`). -/
theorem c2_json_output (fetch : WheelUrl → Except String Archive) (π : List Nat)
    (urls : List WheelUrl) (pairs : List (String × String))
    (hπ : π.Perm (List.range urls.length))
    (h : List.Forall₂ (FetchSpec fetch) urls pairs) :
    ∃ out, mainModel fetch π urls = some out ∧
      parseJsonObject out = some (reorder π pairs) ∧
      (reorder π pairs).Perm pairs := by
  have ht : List.Forall₂ (TaskSpec fetch) urls pairs :=
    h.imp (fun _ _ hab => fetchSpec_taskSpec hab)
  refine ⟨_, mainModel_ok fetch π urls pairs ht, parseJsonObject_encodeMap _, ?_⟩
  apply reorder_perm
  have hlen : urls.length = pairs.length := ht.length_eq
  rw [← hlen]
  exact hπ

/-- C2 counterexample to the claim as stated: for the locator parsed from
`http://example.com` (path `/`), the fetch succeeds (the task returns the
decoded value `B`), yet the program writes no JSON object at all — `main`
panics deriving the display name. -/
theorem c2_json_output_counterexample :
    runModel fetchRootB urlRootHttp = some (.ok (urlRootHttp, "B")) ∧
    mainModel fetchRootB [0] [urlRootHttp] = none :=
  ⟨rfl, rfl⟩

/-- C2 witness: two concrete file locators, completion order `[1, 0]`. -/
theorem c2_json_output_witness :
    ∃ out, mainModel fetchAB [1, 0] [urlA, urlB] = some out ∧
      parseJsonObject out
        = some (reorder [1, 0] [("a.whl", "Name: A"), ("b.whl", "Name: B")]) ∧
      (reorder [1, 0] [("a.whl", "Name: A"), ("b.whl", "Name: B")]).Perm
        [("a.whl", "Name: A"), ("b.whl", "Name: B")] :=
  c2_json_output fetchAB [1, 0] [urlA, urlB] [("a.whl", "Name: A"), ("b.whl", "Name: B")]
    (by decide)
    (.cons ⟨Service.File "/", archiveA, 0, ⟨some "pkgA-1.0.dist-info/METADATA", some "Name: A"⟩,
        rfl, rfl, by decide, rfl, rfl, by decide⟩
      (.cons ⟨Service.File "/", archiveB, 1, ⟨some "pkgB-2.0.dist-info/METADATA", some "Name: B"⟩,
        rfl, rfl, by decide, rfl, rfl, by decide⟩ .nil))

/-- C3: for every list of locators (each with a well-defined endpoint),
resolving them all against one shared cache constructs exactly one backend
handle per distinct origin `(url_type, endpoint)` — the construction log is
duplicate-free and covers exactly the origins of the input locators — and any
further lookup of an already-resolved origin returns the existing handle,
leaving the cache unchanged. -/
theorem c3_backend_cache (urls : List WheelUrl)
    (h : ∀ u ∈ urls, (u.endpoint).isSome) :
    ∃ s₂, processAll urls Services.empty = some s₂ ∧
      s₂.log.Nodup ∧
      (∀ o, o ∈ s₂.log ↔ ∃ u ∈ urls, ∃ ep, u.endpoint = some ep ∧ o = (u.url_type, ep)) ∧
      (∀ u ∈ urls, ∀ ep, u.endpoint = some ep →
        ∃ op, findService (u.url_type, ep) s₂.services = some op ∧
          s₂.operator u = some (op, s₂)) := by
  obtain ⟨s₂, hrun, hinv, hlog⟩ := processAll_spec urls Services.empty h ServicesInv_empty
  refine ⟨s₂, hrun, hinv.2, ?_, ?_⟩
  · intro o
    rw [hlog o]
    simp [Services.empty]
  · intro u hu ep hep
    have hmem : (u.url_type, ep) ∈ s₂.log :=
      (hlog (u.url_type, ep)).mpr (Or.inr ⟨u, hu, ep, hep, rfl⟩)
    have hkey : (u.url_type, ep) ∈ s₂.services.map Prod.fst := by
      rw [hinv.1]; exact hmem
    obtain ⟨op, hop⟩ := findService_of_mem _ _ hkey
    refine ⟨op, hop, ?_⟩
    rw [Services.operator, hep]
    simp only [Option.map_some', hop]

/-- C3 witness: two locators with the same http origin plus one file locator
construct exactly two handles. -/
theorem c3_backend_cache_witness :
    (∀ u ∈ [⟨.Httpx, ⟨"http", some "example.com", "/a.whl"⟩⟩,
            ⟨.Httpx, ⟨"http", some "example.com", "/b.whl"⟩⟩, urlA],
      (WheelUrl.endpoint u).isSome) ∧
    ∃ s₂, processAll [⟨.Httpx, ⟨"http", some "example.com", "/a.whl"⟩⟩,
            ⟨.Httpx, ⟨"http", some "example.com", "/b.whl"⟩⟩, urlA] Services.empty
        = some s₂ ∧
      s₂.log.Nodup ∧
      (∀ o, o ∈ s₂.log ↔ ∃ u ∈ [⟨.Httpx, ⟨"http", some "example.com", "/a.whl"⟩⟩,
            ⟨.Httpx, ⟨"http", some "example.com", "/b.whl"⟩⟩, urlA],
        ∃ ep, u.endpoint = some ep ∧ o = (u.url_type, ep)) ∧
      (∀ u ∈ [⟨.Httpx, ⟨"http", some "example.com", "/a.whl"⟩⟩,
            ⟨.Httpx, ⟨"http", some "example.com", "/b.whl"⟩⟩, urlA],
        ∀ ep, u.endpoint = some ep →
        ∃ op, findService (u.url_type, ep) s₂.services = some op ∧
          s₂.operator u = some (op, s₂)) :=
  ⟨by decide, c3_backend_cache _ (by decide)⟩

/-- C4: for every input string, URL-parse success/failure drives the
dispatch: on parse failure the string is treated as a local filesystem path
(fifth part); on success the locator is accepted exactly when the scheme is
`http`, `https` or `file` (first part), with `http`/`https` yielding a remote
(`Httpx`) locator (second part), `file` a local one (third part), and any
other scheme the `unknown scheme` parse error (fourth part). -/
theorem c4_parse_dispatch (s : String) (u v : Url) :
    ((∃ w, WheelUrl.from_str (some u) s = .ok w) ↔
      (u.scheme = "http" ∨ u.scheme = "https" ∨ u.scheme = "file")) ∧
    ((u.scheme = "http" ∨ u.scheme = "https") →
      WheelUrl.from_str (some u) s = .ok ⟨.Httpx, u⟩) ∧
    (u.scheme = "file" → WheelUrl.from_str (some u) s = .ok ⟨.File, u⟩) ∧
    (¬ (u.scheme = "http" ∨ u.scheme = "https" ∨ u.scheme = "file") →
      WheelUrl.from_str (some u) s = .error ("unknown scheme: " ++ s)) ∧
    (Url.from_file_path s = some v → WheelUrl.from_str none s = .ok ⟨.File, v⟩) := by
  have hred : WheelUrl.from_str (some u) s = wheelUrlOfUrl s u := rfl
  have h2 : (u.scheme = "http" ∨ u.scheme = "https") →
      WheelUrl.from_str (some u) s = .ok ⟨.Httpx, u⟩ := by
    intro h
    rw [hred, wheelUrlOfUrl, if_pos (h.elim (fun hh => Or.inr hh) (fun hh => Or.inl hh))]
  have h3 : u.scheme = "file" → WheelUrl.from_str (some u) s = .ok ⟨.File, u⟩ := by
    intro h
    rw [hred, wheelUrlOfUrl,
      if_neg (by rw [h]; rintro (hh | hh) <;> exact absurd hh (by decide)), if_pos h]
  have h4 : ¬ (u.scheme = "http" ∨ u.scheme = "https" ∨ u.scheme = "file") →
      WheelUrl.from_str (some u) s = .error ("unknown scheme: " ++ s) := by
    intro h
    push_neg at h
    obtain ⟨ha, hb, hc⟩ := h
    rw [hred, wheelUrlOfUrl,
      if_neg (fun hor => hor.elim (fun hh => hb hh) (fun hh => ha hh)), if_neg hc]
  refine ⟨⟨?_, ?_⟩, h2, h3, h4, ?_⟩
  · rintro ⟨w, hw⟩
    by_contra hn
    rw [h4 hn] at hw
    exact absurd hw (by simp)
  · rintro (h | h | h)
    exacts [⟨_, h2 (Or.inl h)⟩, ⟨_, h2 (Or.inr h)⟩, ⟨_, h3 h⟩]
  · intro h
    show (match Url.from_file_path s with
      | some url => Except.ok (⟨.File, url⟩ : WheelUrl)
      | none => .error ("invalid path: " ++ s)) = _
    rw [h]

/-- C4 witness: an `http` URL is accepted as remote, an `ftp` URL is rejected
with the unknown-scheme error, and a bare absolute path becomes a local
locator. -/
theorem c4_parse_dispatch_witness :
    WheelUrl.from_str (some ⟨"http", some "example.com", "/p.whl"⟩) "http://example.com/p.whl"
      = .ok ⟨.Httpx, ⟨"http", some "example.com", "/p.whl"⟩⟩ ∧
    WheelUrl.from_str (some ⟨"ftp", some "example.com", "/p.whl"⟩) "ftp://example.com/p.whl"
      = .error ("unknown scheme: " ++ "ftp://example.com/p.whl") ∧
    WheelUrl.from_str none "/tmp/p.whl" = .ok ⟨.File, ⟨"file", none, "/tmp/p.whl"⟩⟩ :=
  ⟨(c4_parse_dispatch "http://example.com/p.whl" ⟨"http", some "example.com", "/p.whl"⟩
      ⟨"", none, ""⟩).2.1 (Or.inl rfl),
   (c4_parse_dispatch "ftp://example.com/p.whl" ⟨"ftp", some "example.com", "/p.whl"⟩
      ⟨"", none, ""⟩).2.2.2.1 (by decide),
   (c4_parse_dispatch "/tmp/p.whl" ⟨"", none, ""⟩ ⟨"file", none, "/tmp/p.whl"⟩).2.2.2.2
      (by decide)⟩

/-- C5 (amended): the display name of a parsed locator equals the final path
segment of its underlying path, independent of scheme and locator type
(third part), whenever that segment is a normal name.  Via the bare-path
fallback — which keeps `..` segments — a final `..` makes the display name
fail instead of being returned, and a path with no final segment (the root)
fails with the `no file name` error (first part); locators from the URL
parser have dot-segment-free paths, for which the equality is unconditional
(second part). -/
theorem c5_display_name (s : String) (u : Url) (w wu : WheelUrl) :
    (WheelUrl.from_str none s = .ok w →
      w.url.path = s ∧
      (∀ seg, finalPathSegment s = some seg → seg ≠ "." → seg ≠ ".." →
        w.file_name = some seg) ∧
      (finalPathSegment s = some ".." → w.file_name = none) ∧
      (finalPathSegment s = none → w.file_name = none)) ∧
    (WheelUrl.from_str (some u) s = .ok wu → DotFree u.path →
      wu.file_name = finalPathSegment wu.url.path) ∧
    (∀ v₁ v₂ : WheelUrl, v₁.url.path = v₂.url.path → v₁.file_name = v₂.file_name) := by
  refine ⟨?_, ?_, ?_⟩
  · intro h
    have hw : w = ⟨.File, ⟨"file", none, s⟩⟩ := by
      simp only [WheelUrl.from_str, Url.from_file_path] at h
      split_ifs at h with habs
      injection h with h₂
      exact h₂.symm
    subst hw
    refine ⟨rfl, ?_, ?_, ?_⟩
    · intro seg hseg hdot hdd
      show pathFileName s = some seg
      rw [pathFileName_of_finalPathSegment s seg hseg hdot, if_neg hdd]
    · intro hseg
      show pathFileName s = none
      rw [pathFileName_of_finalPathSegment s ".." hseg (by decide), if_pos rfl]
    · intro hseg
      exact pathFileName_of_no_segment s hseg
  · intro h hdf
    have hred : WheelUrl.from_str (some u) s = wheelUrlOfUrl s u := rfl
    rw [hred, wheelUrlOfUrl] at h
    split_ifs at h with h₁ h₂
    · injection h with h₃
      rw [← h₃]
      exact pathFileName_eq_finalPathSegment u.path hdf
    · injection h with h₃
      rw [← h₃]
      exact pathFileName_eq_finalPathSegment u.path hdf
  · intro v₁ v₂ hp
    show pathFileName v₁.url.path = pathFileName v₂.url.path
    rw [hp]

/-- C5 counterexample to the claim as stated: `/tmp/..` is a valid locator
string — the bare-path fallback accepts it and keeps the `..` segment — and
its final path segment is `..`, yet the display name is not that segment:
`PathBuf::file_name` returns `None` for a path terminating in `..`, so
`file_name` fails although a final segment exists. -/
theorem c5_display_name_counterexample :
    WheelUrl.from_str none "/tmp/.." = .ok ⟨.File, ⟨"file", none, "/tmp/.."⟩⟩ ∧
    finalPathSegment "/tmp/.." = some ".." ∧
    (⟨.File, ⟨"file", none, "/tmp/.."⟩⟩ : WheelUrl).file_name = none :=
  ⟨rfl, by decide, by decide⟩

/-- C5 witness: the bare-path locator `/tmp/a.whl` gets display name `a.whl`,
its final path segment; the URL-parsed `file:///tmp/a.whl` satisfies the
equality unconditionally. -/
theorem c5_display_name_witness :
    ((⟨.File, ⟨"file", none, "/tmp/a.whl"⟩⟩ : WheelUrl).file_name = some "a.whl") ∧
    DotFree urlA.url.path ∧
    (urlA.file_name = finalPathSegment urlA.url.path) ∧
    urlA.file_name = some "a.whl" ∧ urlRootFile.file_name = none :=
  ⟨((c5_display_name "/tmp/a.whl" ⟨"", none, ""⟩ ⟨.File, ⟨"file", none, "/tmp/a.whl"⟩⟩
        urlA).1 rfl).2.1 "a.whl" (by decide) (by decide) (by decide),
   by unfold DotFree; decide,
   (c5_display_name "file:///tmp/a.whl" urlA.url ⟨.File, ⟨"file", none, "/tmp/a.whl"⟩⟩
        urlA).2.1 rfl (by unfold DotFree; decide),
   by decide, by decide⟩

/-- C6: any task-scoped error in any single locator's task aborts the whole
process (the `expect` panic, embedded as `none`): whatever the other tasks
produced, no output is written, instead of reporting the failure
per-locator. -/
theorem c6_error_aborts (fetch : WheelUrl → Except String Archive) (π : List Nat)
    (urls : List WheelUrl) (i : Nat) (u : WheelUrl) (e : String)
    (hπ : π.Perm (List.range urls.length))
    (hsome : ∀ v ∈ urls, (runModel fetch v).isSome)
    (hi : urls.get? i = some u)
    (herr : runModel fetch u = some (.error e)) :
    mainModel fetch π urls = none := by
  obtain ⟨hlen, _⟩ := List.get?_eq_some.mp hi
  have hiπ : i ∈ π := hπ.mem_iff.mpr (List.mem_range.mpr hlen)
  exact mainModel_none_of_error fetch π urls i u e hsome hi herr hiπ

/-- C6 witness: the first locator's task succeeds, the second fails with the
not-found error, and the whole run produces no output. -/
theorem c6_error_aborts_witness :
    ([0, 1] : List Nat).Perm (List.range 2) ∧
    (∀ v ∈ [urlA, urlB], (runModel fetchNoMeta v).isSome) ∧
    runModel fetchNoMeta urlA = some (.ok (urlA, "Name: A")) ∧
    runModel fetchNoMeta urlB = some (.error "no METADATA file") ∧
    mainModel fetchNoMeta [0, 1] [urlA, urlB] = none :=
  ⟨by decide, by decide, rfl, rfl,
   c6_error_aborts fetchNoMeta [0, 1] [urlA, urlB] 1 urlB "no METADATA file"
     (by decide) (by decide) rfl rfl⟩

/-- C7 (amended): for every successfully processed locator the JSON member's
key is the archive display name (first part); but when no display name can be
derived, the process panics (`no file name`) and no member is emitted — the
full locator string is not used as a fallback key (second part). -/
theorem c7_member_key (fetch : WheelUrl → Except String Archive) (π : List Nat)
    (urls : List WheelUrl) :
    (∀ pairs, List.Forall₂ (TaskSpec fetch) urls pairs →
      mainModel fetch π urls = some (encodeMap (reorder π pairs))) ∧
    (∀ (V : List (WheelUrl × String)) (i : Nat) v,
      π.Perm (List.range urls.length) →
      List.Forall₂ (fun u r => runModel fetch u = some (.ok r)) urls V →
      V.get? i = some v → v.1.file_name = none →
      mainModel fetch π urls = none) := by
  constructor
  · intro pairs h
    exact mainModel_ok fetch π urls pairs h
  · intro V i v hπ hok hi hname
    obtain ⟨hlen, _⟩ := List.get?_eq_some.mp hi
    have hlen₂ : V.length = urls.length := hok.length_eq.symm
    have hiπ : i ∈ π := hπ.mem_iff.mpr (List.mem_range.mpr (by omega))
    exact mainModel_none_of_noname fetch π urls V i v hok hi hname hiπ

/-- C7 counterexample to the claim as stated: the locator parsed from
`file:///` is processed successfully (its task yields `T`), no display name
can be derived, and the member is NOT emitted with the full locator string as
key — the run aborts with no output at all. -/
theorem c7_member_key_counterexample :
    urlRootFile.file_name = none ∧
    runModel fetchRootT urlRootFile = some (.ok (urlRootFile, "T")) ∧
    mainModel fetchRootT [0] [urlRootFile] = none ∧
    mainModel fetchRootT [0] [urlRootFile]
      ≠ some (encodeMap [(urlRootFile.displayString, "T")]) :=
  ⟨rfl, rfl, rfl, by decide⟩

/-- C7 witness: the panic case at a concrete input. -/
theorem c7_member_key_witness :
    ([0] : List Nat).Perm (List.range 1) ∧
    runModel fetchRootT urlRootFile = some (.ok (urlRootFile, "T")) ∧
    urlRootFile.file_name = none ∧
    mainModel fetchRootT [0] [urlRootFile] = none :=
  ⟨by decide, rfl, rfl,
   (c7_member_key fetchRootT [0] [urlRootFile]).2 [(urlRootFile, "T")] 0 (urlRootFile, "T")
     (by decide) (.cons rfl .nil) rfl rfl⟩

/-- C8: the orchestrator yields results to the encoder in task completion
order `π`, not input order — the output members appear in exactly the order
`reorder π pairs` (first part) — and the encoder's emission is incremental:
after any number `k` of completions, the bytes for those `k` members are
already a prefix of the final output stream, so no member's emission waits on
an unfinished sibling (second part). -/
theorem c8_completion_order (fetch : WheelUrl → Except String Archive) (π : List Nat)
    (urls : List WheelUrl) (pairs : List (String × String))
    (h : List.Forall₂ (TaskSpec fetch) urls pairs) :
    mainModel fetch π urls = some (encodeMap (reorder π pairs)) ∧
    ∀ k, ∃ r, encodeMap (reorder π pairs)
      = encodeMapPartial ((reorder π pairs).take k) ++ r :=
  ⟨mainModel_ok fetch π urls pairs h, fun k => encodeMap_take_prefix _ k⟩

/-- C8 witness: with input order `[urlA, urlB]` but completion order `[1, 0]`
(the second-listed task finishes first), `urlB`'s member is emitted first. -/
theorem c8_completion_order_witness :
    (mainModel fetchAB [1, 0] [urlA, urlB]
        = some (encodeMap (reorder [1, 0] [("a.whl", "Name: A"), ("b.whl", "Name: B")])) ∧
      ∀ k, ∃ r, encodeMap (reorder [1, 0] [("a.whl", "Name: A"), ("b.whl", "Name: B")])
        = encodeMapPartial
            ((reorder [1, 0] [("a.whl", "Name: A"), ("b.whl", "Name: B")]).take k) ++ r) ∧
    reorder [1, 0] [("a.whl", "Name: A"), ("b.whl", "Name: B")]
      = [("b.whl", "Name: B"), ("a.whl", "Name: A")] :=
  ⟨c8_completion_order fetchAB [1, 0] [urlA, urlB]
      [("a.whl", "Name: A"), ("b.whl", "Name: B")]
      (.cons ⟨rfl, by decide⟩ (.cons ⟨rfl, by decide⟩ .nil)),
   by decide⟩

/-- C9: an input string that fails URL parsing is accepted as a bare path
only when absolute: a non-absolute fallback path fails with the
`invalid path` error (first part), while an absolute one yields a local
locator (second part). -/
theorem c9_relative_path_rejected (s : String) :
    (isAbsolutePath s = false →
      WheelUrl.from_str none s = .error ("invalid path: " ++ s)) ∧
    (isAbsolutePath s = true →
      ∃ w, WheelUrl.from_str none s = .ok w ∧ w.url_type = .File) := by
  constructor
  · intro h
    simp [WheelUrl.from_str, Url.from_file_path, h]
  · intro h
    exact ⟨⟨.File, ⟨"file", none, s⟩⟩,
      by simp [WheelUrl.from_str, Url.from_file_path, h], rfl⟩

/-- C9 witness: the relative path `pkg.whl` is rejected with the
`invalid path` error; the absolute path `/tmp/pkg.whl` is accepted. -/
theorem c9_relative_path_rejected_witness :
    isAbsolutePath "pkg.whl" = false ∧
    WheelUrl.from_str none "pkg.whl" = .error ("invalid path: " ++ "pkg.whl") ∧
    isAbsolutePath "/tmp/pkg.whl" = true ∧
    (∃ w, WheelUrl.from_str none "/tmp/pkg.whl" = .ok w ∧ w.url_type = .File) :=
  ⟨by decide, (c9_relative_path_rejected "pkg.whl").1 (by decide), by decide,
   (c9_relative_path_rejected "/tmp/pkg.whl").2 (by decide)⟩

/-- C10: some locators that parse successfully make backend construction
panic instead of returning an error: the URL modelling
`http://127.0.0.1/pkg.whl` (domain accessor `none` for an IP host) is
accepted by `from_str`, yet both `service()` (src/main.rs) and `endpoint()`
(src/reader.rs) hit the `domain().unwrap()` panic (`none`). -/
theorem c10_backend_construction_panics :
    ∃ (u : Url) (w : WheelUrl),
      u.domain = none ∧
      WheelUrl.from_str (some u) "http://127.0.0.1/pkg.whl" = .ok w ∧
      w.service = none ∧ w.endpoint = none :=
  ⟨⟨"http", none, "/pkg.whl"⟩, ⟨.Httpx, ⟨"http", none, "/pkg.whl"⟩⟩, rfl, rfl, rfl, rfl⟩
